import Mathlib

/-!
Verification development for `src/price_display.py`, a Stream Deck BTC price
viewer.  The program is shallowly embedded below: Python strings are modelled
as `List Char`, floats as rationals `ℚ`, and the effectful parts
(HTTP fetch, device writes, sleeps) as pure functions from an explicit input
model to result records / event traces.  Definitions keep the source's names
(`fetch_price_and_trend`, `create_price_images`, `fill_unused_keys`, ...).
-/

/-- `REFRESH_INTERVAL = 30`, seconds between API refreshes. -/
def REFRESH_INTERVAL : Nat := 30

/-- `KEY_WIDTH, KEY_HEIGHT = 72, 72`. -/
def KEY_WIDTH : Nat := 72

def KEY_HEIGHT : Nat := 72

/-! ## Decimal formatting

Python's `f"{price:,.2f}"` renders a nonnegative value as its integer part
grouped in threes by commas, a dot, and exactly two (zero-padded) decimal
digits, after rounding the value to cents with round-half-to-even.  We model
this in layers: `rne` (round half to even), `natDigits` (decimal digit
characters of a natural number), `grpRev` (comma grouping on the reversed
digit list), `formatCents` / `formatPrice`. -/

/-- Decimal digit characters of `n`, most significant first, accumulator
style with fuel (fuel `n+1` always suffices since the argument shrinks by a
factor of ten each step). -/
def digitsGo : Nat → Nat → List Char → List Char
  | 0, _, acc => acc
  | fuel+1, n, acc =>
    let acc2 := Nat.digitChar (n % 10) :: acc
    if n / 10 = 0 then acc2 else digitsGo fuel (n / 10) acc2

def natDigits (n : Nat) : List Char := digitsGo (n+1) n []

/-- Insert a comma after every three characters, starting from the head; used
on the *reversed* digit list this is thousands grouping from the right. -/
def grpRev : List Char → List Char
  | a :: b :: c :: r :: rs => a :: b :: c :: ',' :: grpRev (r :: rs)
  | l => l

/-- Thousands grouping of a digit-character list (groups of three from the
right, comma-separated), as in Python's `,` format spec. -/
def addThousands (l : List Char) : List Char := (grpRev l.reverse).reverse

/-- Exactly two decimal digit characters for `n < 100` (zero padded). -/
def twoDigits (n : Nat) : List Char :=
  [Nat.digitChar (n / 10 % 10), Nat.digitChar (n % 10)]

/-- Round half to even of a rational to an integer (the rounding used when
Python formats a float with `.2f`, transported to `ℚ`). -/
def rne (q : ℚ) : ℤ :=
  let f := ⌊q⌋
  let r := q - f
  if r < 1/2 then f else if 1/2 < r then f + 1 else if f % 2 = 0 then f else f + 1

/-- The value in (rounded) cents of a nonnegative price. -/
def priceCents (p : ℚ) : Nat := (rne (p * 100)).toNat

/-- `f"{price:,.2f}"` from the cents value: grouped integer part, `'.'`,
two decimal digits. -/
def formatCents (cents : Nat) : List Char :=
  addThousands (natDigits (cents / 100)) ++ '.' :: twoDigits (cents % 100)

/-- `f"{price:,.2f}"` for a nonnegative price. -/
def formatPrice (p : ℚ) : List Char := formatCents (priceCents p)

/-- `f"{percent_change:+.2f}%"` (tile 5's text): explicit sign, the rounded
magnitude with exactly two decimal digits, trailing percent sign. -/
def fmtSignedPercent (c : ℚ) : List Char :=
  let sign := if c < 0 then '-' else '+'
  let m := (rne (|c| * 100)).toNat
  sign :: (natDigits (m / 100) ++ '.' :: twoDigits (m % 100) ++ ['%'])

/-! ## Trend classification and the quote fetcher -/

/-- `trend = 1 if change_24h > 0 else -1 if change_24h < 0 else 0`
(line 49 of the source).  `1` renders as Up (green, `'▲'`), `-1` as Down
(red, `'▼'`), `0` as Flat (white, `'-'`). -/
def classify_trend (change_24h : ℚ) : ℤ :=
  if change_24h > 0 then 1 else if change_24h < 0 then -1 else 0

/-- Input model for one call of `fetch_price_and_trend`:
* `netError`: `requests.get` itself raises (network failure);
* `response status body`: an HTTP response arrived with the given status;
  `body = none` models a body on which `response.json()` raises (malformed
  JSON), `body = some (usd, chg)` models a parsed JSON body whose
  `["bitcoin"]["usd"]` and `["bitcoin"]["usd_24h_change"]` lookups return
  the given optional values (`none` = key missing). -/
inductive ApiEvent where
  | netError
  | response (status : Nat) (body : Option (Option ℚ × Option ℚ))
deriving DecidableEq

/-- The triple returned by `fetch_price_and_trend`, together with the number
of seconds it slept internally (`time.sleep(60)` on HTTP 429, else none). -/
structure FetchResult where
  price : Option ℚ
  trend : ℤ
  change : ℚ
  slept : Nat
deriving DecidableEq

/-- `fetch_price_and_trend` (lines 29-54): on 429, sleep 60 s and return the
unavailable triple `(None, 0, 0)`; on a JSON parse failure, a missing field,
or any raised exception, return the same unavailable triple; otherwise return
the price, the classified trend and the raw change.  Totality of this
function is the embedding of "the surrounding `try/except` lets no exception
propagate". -/
def fetch_price_and_trend (r : ApiEvent) : FetchResult :=
  match r with
  | .netError => { price := none, trend := 0, change := 0, slept := 0 }
  | .response status body =>
    if status = 429 then
      { price := none, trend := 0, change := 0, slept := 60 }
    else
      match body with
      | none => { price := none, trend := 0, change := 0, slept := 0 }
      | some (usd, chg) =>
        match usd, chg with
        | some p, some c =>
          { price := some p, trend := classify_trend c, change := c, slept := 0 }
        | some _, none => { price := none, trend := 0, change := 0, slept := 0 }
        | none, _ => { price := none, trend := 0, change := 0, slept := 0 }

/-- An `ApiEvent` on which the fetch fails: network error, rate limit,
malformed JSON, or a missing `usd` / `usd_24h_change` field. -/
def failureEvent : ApiEvent → Bool
  | .netError => true
  | .response _ none => true
  | .response s (some (u, c)) => s == 429 || u.isNone || c.isNone

/-! ## Tile texts (`create_price_images`, lines 70-94) -/

/-- The six tile text strings of `create_price_images`, computed from
`price_str = f"{price:,.2f}"` exactly as in the source:

* `integer_part, decimal_part = price_str.split(".")` (the string has
  exactly one dot, so this is take/drop at the dot);
* `integer_digits = integer_part.replace(",", "")`;
* `tile1 = "$" + integer_digits[0]`;
* `tile2 = integer_part[1:comma_index+1]` if a comma exists at
  `comma_index`, else `integer_part[1:] + ","`;
* `tile3 = integer_digits[1 + len(tile2.replace(",", "")):]`;
* `tile4 = "." + decimal_part`; `tile5 = f"{percent_change:+.2f}%"`;
* `tile6` the trend arrow. -/
def tile_texts_fromStr (price_str : List Char) (trend : ℤ) (percent_change : ℚ) :
    List (List Char) :=
  let integer_part := price_str.takeWhile (fun c => c != '.')
  let decimal_part := (price_str.dropWhile (fun c => c != '.')).drop 1
  let integer_digits := integer_part.filter (fun c => c != ',')
  let tile1_text := '$' :: integer_digits.take 1
  let tile2_text :=
    match integer_part.findIdx? (fun c => c == ',') with
    | some j => (integer_part.take (j+1)).drop 1
    | none => integer_part.drop 1 ++ [',']
  let tile3_text := integer_digits.drop (1 + (tile2_text.filter (fun c => c != ',')).length)
  let tile4_text := '.' :: decimal_part
  let tile5_text := fmtSignedPercent percent_change
  let tile6_text := if trend > 0 then ['▲'] else if trend < 0 then ['▼'] else ['-']
  [tile1_text, tile2_text, tile3_text, tile4_text, tile5_text, tile6_text]

/-- The six tile texts of `create_price_images`, starting from
`price_str = f"{price:,.2f}"`. -/
def tile_texts (price : ℚ) (trend : ℤ) (percent_change : ℚ) : List (List Char) :=
  tile_texts_fromStr (formatPrice price) trend percent_change

/-- One rendered tile: its text, font size, RGB colour and the vertical
centering offset `y_offset` passed to `create_tile_image` (the bitmap's text
is drawn at `y = (key_height - text_height) // 2 - y_offset`; font metrics
are external, so the offset is what we model of the geometry). -/
structure Tile where
  text : List Char
  fontSize : Nat
  color : Nat × Nat × Nat
  yOffset : Nat
deriving DecidableEq

/-- `create_tile_image(text, color, font_path, font_size, ..., y_offset)`:
we record the drawing parameters (the pixel rendering itself is an external
black box). -/
def create_tile_image (text : List Char) (color : Nat × Nat × Nat)
    (font_size : Nat) (y_offset : Nat) : Tile :=
  { text := text, fontSize := font_size, color := color, yOffset := y_offset }

/-- `create_price_images` (lines 70-106): builds the six tile texts, picks
`font_sizes = [42, 42, 37, 39, 20, 48]` and the trend colour, and renders
tile `i` with `y_offset = 6` when `i in [0, 1, 2, 3, 5]` and with the
default `y_offset = 0` otherwise. -/
def create_price_images (price : ℚ) (trend : ℤ) (percent_change : ℚ) : List Tile :=
  let font_sizes : List Nat := [42, 42, 37, 39, 20, 48]
  let color : Nat × Nat × Nat :=
    if trend > 0 then (0, 255, 0) else if trend < 0 then (255, 0, 0) else (255, 255, 255)
  (tile_texts price trend percent_change).enum.map (fun it =>
    if [0, 1, 2, 3, 5].contains it.1 then
      create_tile_image it.2 color (font_sizes.getD it.1 0) 6
    else
      create_tile_image it.2 color (font_sizes.getD it.1 0) 0)

/-! ## Device blanking (`fill_unused_keys`, lines 133-139) and the
driver loop (`main`, lines 141-168) -/

/-- The solid black RGB fill of the blank bitmap. -/
def blackColor : Nat × Nat × Nat := (0, 0, 0)

/-- `used_keys = [4, 5, 6, 7, 8, 9, 10]` in `main`: the six price tiles
(key map `[5, 6, 7, 8, 4, 9]`) plus the countdown key `10`. -/
def used_keys_main : List Nat := [4, 5, 6, 7, 8, 9, 10]

/-- `fill_unused_keys(deck, used_keys)`: the list of key writes it performs,
as `(key, colour)` pairs — a solid black bitmap to every
`key in range(deck.key_count())` with `key not in used_keys`, in order. -/
def fill_unused_keys (key_count : Nat) (used_keys : List Nat) :
    List (Nat × (Nat × Nat × Nat)) :=
  ((List.range key_count).filter (fun k => !(used_keys.contains k))).map
    (fun k => (k, blackColor))

/-- Observable actions of one iteration of the `while True` loop in `main`. -/
inductive Event where
  | sleepSec (n : Nat)
  | renderTiles
  | pushTiles
  | blankUnused
  | pushCountdown (secondsLeft : Nat)
deriving DecidableEq

/-- The countdown phase `for i in range(REFRESH_INTERVAL, 0, -1)`: push the
countdown tile for `i`, then sleep one second. -/
def countdownTicks (n : Nat) : List Event :=
  ((List.range n).map (fun k => n - k)).flatMap
    (fun i => [Event.pushCountdown i, Event.sleepSec 1])

/-- One iteration of the driver loop (lines 150-166), as the trace of its
observable actions, given the result of the fetch: if `price is None`,
`time.sleep(REFRESH_INTERVAL); continue`; otherwise render the tiles, push
them, blank the unused keys, then run the countdown. -/
def loop_iter (fr : FetchResult) : List Event :=
  match fr.price with
  | none => [Event.sleepSec REFRESH_INTERVAL]
  | some _ =>
    Event.renderTiles :: Event.pushTiles :: Event.blankUnused ::
      countdownTicks REFRESH_INTERVAL

/-! ## Helper lemmas: digit characters, `digitsGo`, `grpRev`, `addThousands` -/

theorem digitChar_isDigit {n : Nat} (h : n < 10) : (Nat.digitChar n).isDigit = true := by
  interval_cases n <;> decide

theorem isDigit_ne_comma {c : Char} (h : c.isDigit = true) : c ≠ ',' := by
  intro hc
  rw [hc] at h
  exact absurd h (by decide)

theorem isDigit_ne_dot {c : Char} (h : c.isDigit = true) : c ≠ '.' := by
  intro hc
  rw [hc] at h
  exact absurd h (by decide)

theorem digitsGo_all_digit :
    ∀ (fuel n : Nat) (acc : List Char), (∀ c ∈ acc, c.isDigit = true) →
      ∀ c ∈ digitsGo fuel n acc, c.isDigit = true := by
  intro fuel
  induction fuel with
  | zero => intro n acc hacc; exact hacc
  | succ k ih =>
    intro n acc hacc c hc
    have hacc2 : ∀ c ∈ Nat.digitChar (n % 10) :: acc, c.isDigit = true := by
      intro d hd
      rcases List.mem_cons.mp hd with h1 | h2
      · subst h1; exact digitChar_isDigit (Nat.mod_lt _ (by norm_num))
      · exact hacc d h2
    rw [digitsGo] at hc
    by_cases h10 : n / 10 = 0
    · simp only [h10, if_pos rfl] at hc
      exact hacc2 c hc
    · simp only [if_neg h10] at hc
      exact ih (n / 10) _ hacc2 c hc

theorem natDigits_all_digit (n : Nat) : ∀ c ∈ natDigits n, c.isDigit = true :=
  digitsGo_all_digit (n+1) n [] (by intro c hc; cases hc)

theorem digitsGo_length :
    ∀ (fuel n : Nat) (acc : List Char), acc.length ≤ (digitsGo fuel n acc).length := by
  intro fuel
  induction fuel with
  | zero => intro n acc; exact Nat.le_refl _
  | succ k ih =>
    intro n acc
    rw [digitsGo]
    by_cases h10 : n / 10 = 0
    · simp only [h10, if_pos rfl, List.length_cons]
      exact Nat.le_succ _
    · simp only [if_neg h10]
      exact Nat.le_trans (Nat.le_succ _) (ih (n / 10) (Nat.digitChar (n % 10) :: acc))

theorem natDigits_ne_nil (n : Nat) : natDigits n ≠ [] := by
  intro h
  have h1 : (1 : Nat) ≤ (natDigits n).length := by
    unfold natDigits
    rw [digitsGo]
    by_cases h10 : n / 10 = 0
    · simp [h10]
    · simp only [if_neg h10]
      simpa using digitsGo_length n (n / 10) [(n % 10).digitChar]
  rw [h] at h1
  exact absurd h1 (by decide)

theorem grpRev_filter (q : Char → Bool) (hq : q ',' = false) :
    ∀ l : List Char, (grpRev l).filter q = l.filter q := by
  intro l
  induction l using grpRev.induct with
  | case1 a b c r rs ih => simp [grpRev, List.filter, hq, ih]
  | case2 l h =>
    rcases l with _ | ⟨a, _ | ⟨b, _ | ⟨c, _ | ⟨d, tl⟩⟩⟩⟩
    · rfl
    · rfl
    · rfl
    · rfl
    · exact (h a b c d tl rfl).elim

theorem grpRev_eq_nil_iff (l : List Char) : grpRev l = [] ↔ l = [] := by
  induction l using grpRev.induct with
  | case1 a b c r rs ih => simp [grpRev]
  | case2 l h =>
    rcases l with _ | ⟨a, _ | ⟨b, _ | ⟨c, _ | ⟨d, tl⟩⟩⟩⟩
    · exact Iff.rfl
    · exact Iff.rfl
    · exact Iff.rfl
    · exact Iff.rfl
    · exact (h a b c d tl rfl).elim

theorem grpRev_getLast? : ∀ l : List Char, (grpRev l).getLast? = l.getLast? := by
  intro l
  induction l using grpRev.induct with
  | case1 a b c r rs ih =>
    have hne : grpRev (r :: rs) ≠ [] := by
      intro h
      exact absurd ((grpRev_eq_nil_iff _).mp h) (by simp)
    rw [grpRev]
    rcases List.exists_cons_of_ne_nil hne with ⟨y, ys, hy⟩
    rw [hy] at ih ⊢
    simp only [List.getLast?_cons_cons]
    exact ih
  | case2 l h =>
    rcases l with _ | ⟨a, _ | ⟨b, _ | ⟨c, _ | ⟨d, tl⟩⟩⟩⟩
    · rfl
    · rfl
    · rfl
    · rfl
    · exact (h a b c d tl rfl).elim

theorem grpRev_mem {c : Char} : ∀ l : List Char, c ∈ grpRev l → c ∈ l ∨ c = ',' := by
  intro l
  induction l using grpRev.induct with
  | case1 a b c2 r rs ih =>
    intro hc
    rw [grpRev] at hc
    simp only [List.mem_cons] at hc ⊢
    rcases hc with h | h | h | h | h
    · exact Or.inl (Or.inl h)
    · exact Or.inl (Or.inr (Or.inl h))
    · exact Or.inl (Or.inr (Or.inr (Or.inl h)))
    · exact Or.inr h
    · rcases ih h with h2 | h2
      · simp only [List.mem_cons] at h2
        exact Or.inl (Or.inr (Or.inr (Or.inr h2)))
      · exact Or.inr h2
  | case2 l h =>
    rcases l with _ | ⟨a, _ | ⟨b, _ | ⟨c2, _ | ⟨d, tl⟩⟩⟩⟩
    · exact fun hc => Or.inl hc
    · exact fun hc => Or.inl hc
    · exact fun hc => Or.inl hc
    · exact fun hc => Or.inl hc
    · exact fun hc => (h a b c2 d tl rfl).elim

theorem addThousands_filter (q : Char → Bool) (hq : q ',' = false) (l : List Char) :
    (addThousands l).filter q = l.filter q := by
  unfold addThousands
  rw [List.filter_reverse, grpRev_filter q hq, ← List.filter_reverse, List.reverse_reverse]

theorem addThousands_head? (l : List Char) : (addThousands l).head? = l.head? := by
  unfold addThousands
  rw [List.head?_reverse, grpRev_getLast?, List.getLast?_reverse]

theorem addThousands_mem {c : Char} {l : List Char} (h : c ∈ addThousands l) :
    c ∈ l ∨ c = ',' := by
  unfold addThousands at h
  rw [List.mem_reverse] at h
  rcases grpRev_mem _ h with h2 | h2
  · exact Or.inl (List.mem_reverse.mp h2)
  · exact Or.inr h2

/-! ## The split of the formatted price string -/

theorem twoDigits_all_digit (n : Nat) : ∀ c ∈ twoDigits n, c.isDigit = true := by
  intro c hc
  simp only [twoDigits, List.mem_cons, List.not_mem_nil, or_false] at hc
  rcases hc with h | h <;> subst h <;>
    exact digitChar_isDigit (Nat.mod_lt _ (by norm_num))

theorem mem_addThousands_ne_dot {m : Nat} {a : Char}
    (ha : a ∈ addThousands (natDigits m)) : (a != '.') = true := by
  rcases addThousands_mem ha with h | h
  · exact bne_iff_ne.mpr (isDigit_ne_dot (natDigits_all_digit m a h))
  · subst h; decide

/-- `price_str.split(".")[0]`: the integer part of `f"{price:,.2f}"` is the
comma-grouped digit string. -/
theorem formatCents_intPart (m : Nat) :
    (formatCents m).takeWhile (fun c => c != '.') = addThousands (natDigits (m / 100)) := by
  unfold formatCents
  rw [List.takeWhile_append_of_pos (fun a ha => mem_addThousands_ne_dot ha)]
  simp [List.takeWhile_cons]

/-- `price_str.split(".")[1]`: the decimal part of `f"{price:,.2f}"` is the
two-digit cents remainder. -/
theorem formatCents_decPart (m : Nat) :
    ((formatCents m).dropWhile (fun c => c != '.')).drop 1 = twoDigits (m % 100) := by
  unfold formatCents
  rw [List.dropWhile_append_of_pos (fun a ha => mem_addThousands_ne_dot ha)]
  simp [List.dropWhile_cons]

/-- `integer_part.replace(",", "")` recovers the plain digit string. -/
theorem formatCents_intDigits (m : Nat) :
    (addThousands (natDigits (m / 100))).filter (fun c => c != ',') = natDigits (m / 100) := by
  rw [addThousands_filter _ (by decide)]
  exact List.filter_eq_self.mpr
    (fun a ha => bne_iff_ne.mpr (isDigit_ne_comma (natDigits_all_digit _ a ha)))

theorem take_length_succ {α : Type} (P : List α) (x : α) (T : List α) :
    (P ++ x :: T).take (P.length + 1) = P ++ [x] := by
  induction P with
  | nil => rfl
  | cons p ps ih => simp [List.take_succ_cons, ih]

theorem filter_comma_cons (T : List Char) :
    (',' :: T).filter (fun c => c != ',') = T.filter (fun c => c != ',') := by
  simp [List.filter_cons]

/-- Structure of the tile split produced by `create_price_images` for an
arbitrary cents value: the integer digit string splits as `P ++ E` with `P`
nonempty, tile 1 is `'$'` + the first digit, tile 2 is the rest of `P` plus a
trailing comma, tile 3 is `E`, tile 4 is `'.'` + the two decimal digits.
(`P` is the digit prefix up to the first thousands separator when one exists,
and the whole integer digit string otherwise.) -/
theorem tile_texts_fromStr_structure (m : Nat) (t : ℤ) (c : ℚ) :
    ∃ P E : List Char,
      natDigits (m / 100) = P ++ E ∧ P ≠ [] ∧
      (∀ ch ∈ P, ch.isDigit = true) ∧ (∀ ch ∈ E, ch.isDigit = true) ∧
      tile_texts_fromStr (formatCents m) t c =
        ['$' :: P.take 1, P.drop 1 ++ [','], E,
         '.' :: twoDigits (m % 100),
         fmtSignedPercent c,
         if t > 0 then ['▲'] else if t < 0 then ['▼'] else ['-']] := by
  have hdsd : ∀ ch ∈ natDigits (m / 100), ch.isDigit = true := natDigits_all_digit _
  have hdsne : natDigits (m / 100) ≠ [] := natDigits_ne_nil _
  cases hfi : (addThousands (natDigits (m / 100))).findIdx? (fun c => c == ',') with
  | none =>
    have hnc : ∀ x ∈ addThousands (natDigits (m / 100)), (x == ',') = false :=
      List.findIdx?_eq_none_iff.mp hfi
    have hgs_eq : addThousands (natDigits (m / 100)) = natDigits (m / 100) :=
      calc addThousands (natDigits (m / 100))
          = (addThousands (natDigits (m / 100))).filter (fun c => c != ',') :=
            (List.filter_eq_self.mpr (fun a ha => by
              simp only [bne, hnc a ha, Bool.not_false])).symm
        _ = natDigits (m / 100) := formatCents_intDigits m
    refine ⟨natDigits (m / 100), [], by simp, hdsne, hdsd, by simp, ?_⟩
    simp only [tile_texts_fromStr]
    rw [formatCents_intPart, formatCents_decPart, formatCents_intDigits]
    simp only [hfi]
    rw [hgs_eq]
    have hfil : ((natDigits (m / 100)).drop 1 ++ [',']).filter (fun c => c != ',') =
        (natDigits (m / 100)).drop 1 := by
      rw [List.filter_append]
      have h1 : List.filter (fun c => c != ',') [','] = [] := by decide
      rw [h1, List.append_nil]
      exact List.filter_eq_self.mpr (fun a ha =>
        bne_iff_ne.mpr (isDigit_ne_comma (hdsd a (List.mem_of_mem_drop ha))))
    rw [hfil]
    have hlen : 1 + ((natDigits (m / 100)).drop 1).length = (natDigits (m / 100)).length := by
      have h1 : 1 ≤ (natDigits (m / 100)).length := by
        rcases List.exists_cons_of_ne_nil hdsne with ⟨d0, ds0, hd⟩
        rw [hd]; simp
      simp only [List.length_drop]
      omega
    rw [hlen, List.drop_length]
  | some j =>
    obtain ⟨hjlt, hpj, hbefore⟩ := List.findIdx?_eq_some_iff_getElem.mp hfi
    have hgsj : (addThousands (natDigits (m / 100)))[j] = ',' := beq_iff_eq.mp hpj
    have hhead : (addThousands (natDigits (m / 100))).head? = (natDigits (m / 100)).head? :=
      addThousands_head? _
    have hj1 : 1 ≤ j := by
      rcases Nat.eq_zero_or_pos j with h0 | h1
      · exfalso
        subst h0
        rcases List.exists_cons_of_ne_nil hdsne with ⟨d0, ds0, hd⟩
        have h1 : (addThousands (natDigits (m / 100)))[0]? = some ',' := by
          rw [List.getElem?_eq_getElem hjlt, hgsj]
        rw [← List.head?_eq_getElem?, hhead, hd] at h1
        simp only [List.head?_cons, Option.some.injEq] at h1
        exact isDigit_ne_comma (hdsd d0 (by rw [hd]; exact List.mem_cons_self d0 ds0)) h1
      · exact h1
    set gs := addThousands (natDigits (m / 100)) with hgs
    set P := gs.take j with hPdef
    have hPlen : P.length = j := by
      rw [hPdef, List.length_take]
      omega
    have hPnc : ∀ x ∈ P, x ≠ ',' := by
      intro x hx
      obtain ⟨i, hi, hxi⟩ := List.mem_iff_getElem.mp hx
      have hij : i < j := by rw [hPlen] at hi; exact hi
      have hglt : i < gs.length := Nat.lt_trans hij hjlt
      have hPi : P[i] = gs[i] := List.getElem_take gs
      rw [hPi] at hxi
      intro hcomma
      exact hbefore i hij (by rw [hxi, hcomma]; exact beq_self_eq_true ',')
    have hgs_decomp : gs = P ++ ',' :: gs.drop (j+1) := by
      conv_lhs => rw [← List.take_append_drop j gs]
      rw [List.drop_eq_getElem_cons hjlt, hgsj]
    have hds_eq : natDigits (m / 100) = P ++ (gs.drop (j+1)).filter (fun c => c != ',') := by
      conv_lhs => rw [← formatCents_intDigits m, ← hgs, hgs_decomp]
      rw [List.filter_append, filter_comma_cons]
      congr 1
      exact List.filter_eq_self.mpr (fun a ha => bne_iff_ne.mpr (hPnc a ha))
    have hP_digit : ∀ ch ∈ P, ch.isDigit = true := fun ch hch =>
      hdsd ch (by rw [hds_eq]; exact List.mem_append_left _ hch)
    have hE_digit : ∀ ch ∈ (gs.drop (j+1)).filter (fun c => c != ','), ch.isDigit = true :=
      fun ch hch => hdsd ch (by rw [hds_eq]; exact List.mem_append_right _ hch)
    have hPne : P ≠ [] := by
      intro h
      rw [h] at hPlen
      simp at hPlen
      omega
    refine ⟨P, (gs.drop (j+1)).filter (fun c => c != ','), hds_eq, hPne, hP_digit, hE_digit, ?_⟩
    simp only [tile_texts_fromStr]
    rw [formatCents_intPart, formatCents_decPart, formatCents_intDigits]
    rw [← hgs]
    simp only [hfi]
    have htake : gs.take (j+1) = P ++ [','] := by
      conv_lhs => rw [hgs_decomp]
      have h2 := take_length_succ P ',' (gs.drop (j+1))
      rw [hPlen] at h2
      exact h2
    rw [htake]
    rcases List.exists_cons_of_ne_nil hPne with ⟨p0, P2, hP2⟩
    have htile2 : (P ++ [',']).drop 1 = P.drop 1 ++ [','] := by
      rw [hP2]; rfl
    rw [htile2]
    have hfil2 : (P.drop 1 ++ [',']).filter (fun c => c != ',') = P.drop 1 := by
      rw [List.filter_append]
      have h1 : List.filter (fun c => c != ',') [','] = [] := by decide
      rw [h1, List.append_nil]
      exact List.filter_eq_self.mpr (fun a ha =>
        bne_iff_ne.mpr (hPnc a (List.mem_of_mem_drop ha)))
    rw [hfil2]
    have hlen2 : 1 + (P.drop 1).length = j := by
      simp only [List.length_drop]
      omega
    rw [hlen2]
    conv_lhs => rw [hds_eq]
    rw [List.drop_left' hPlen]
    have htile1 : (P ++ (gs.drop (j+1)).filter (fun c => c != ',')).take 1 = P.take 1 := by
      rw [hP2]; rfl
    rw [htile1]

theorem filter_isDigit_of_all {l : List Char} (h : ∀ ch ∈ l, ch.isDigit = true) :
    l.filter Char.isDigit = l := List.filter_eq_self.mpr h

/-- The digit characters of the formatted price, in order: the integer
digits followed by the two decimal digits. -/
theorem formatCents_filter_isDigit (m : Nat) :
    (formatCents m).filter Char.isDigit = natDigits (m / 100) ++ twoDigits (m % 100) := by
  unfold formatCents
  rw [List.filter_append, addThousands_filter Char.isDigit (by decide),
      filter_isDigit_of_all (natDigits_all_digit _)]
  congr 1
  rw [List.filter_cons]
  have hdot : Char.isDigit '.' = false := by decide
  rw [hdot]
  simp only [Bool.false_eq_true, if_false]
  exact filter_isDigit_of_all (twoDigits_all_digit _)

/-- `create_price_images` renders exactly the six `tile_texts`. -/
theorem create_price_images_texts (p : ℚ) (t : ℤ) (c : ℚ) :
    (create_price_images p t c).map Tile.text = tile_texts p t c := rfl

/-- C1: for every positive price, concatenating the digit characters of
tiles 1-4 produced by `create_price_images` (i.e. dropping the `'$'` sign,
every thousands separator and the decimal point) reproduces the digit
sequence of the formatted price string `f"{price:,.2f}"` exactly. -/
theorem tiles_digit_concat (p : ℚ) (hp : 0 < p) (t : ℤ) (c : ℚ) :
    ((((create_price_images p t c).map Tile.text).take 4).flatten).filter Char.isDigit =
      (formatPrice p).filter Char.isDigit := by
  rw [create_price_images_texts]
  obtain ⟨P, E, hPE, hPne, hPd, hEd, hts⟩ :=
    tile_texts_fromStr_structure (priceCents p) t c
  have h0 : tile_texts p t c = tile_texts_fromStr (formatCents (priceCents p)) t c := rfl
  rw [h0, hts]
  simp only [List.take_succ_cons, List.take_zero, List.flatten_cons, List.flatten_nil,
    List.append_nil]
  rw [show formatPrice p = formatCents (priceCents p) from rfl, formatCents_filter_isDigit, hPE]
  have hdollar : Char.isDigit '$' = false := by decide
  have hdotf : List.filter Char.isDigit ('.' :: twoDigits (priceCents p % 100)) =
      twoDigits (priceCents p % 100) := by
    rw [List.filter_cons]
    have hdot : Char.isDigit '.' = false := by decide
    rw [hdot]
    simp only [Bool.false_eq_true, if_false]
    exact filter_isDigit_of_all (twoDigits_all_digit _)
  simp only [List.filter_append]
  rw [List.filter_cons, hdollar]
  simp only [Bool.false_eq_true, if_false]
  rw [filter_isDigit_of_all (fun ch hch => hPd ch (List.mem_of_mem_take hch)),
      filter_isDigit_of_all (fun ch hch => hPd ch (List.mem_of_mem_drop hch)),
      show List.filter Char.isDigit [','] = [] from by decide,
      filter_isDigit_of_all hEd, hdotf]
  simp only [List.append_nil, List.append_assoc]
  rw [← List.append_assoc (List.take 1 P) (List.drop 1 P), List.take_append_drop]

theorem not_mem_comma_of_all_digit {l : List Char} (h : ∀ ch ∈ l, ch.isDigit = true) :
    ',' ∉ l := fun hm => isDigit_ne_comma (h ',' hm) rfl

/-- C10: for every positive price, tile 2's text contains exactly one
thousands separator, that separator is its final character, and no other of
tiles 1, 3, 4 contains a separator. -/
theorem tile2_comma_invariant (p : ℚ) (hp : 0 < p) (t : ℤ) (c : ℚ) :
    (((create_price_images p t c).map Tile.text).getD 1 []).count ',' = 1 ∧
    (((create_price_images p t c).map Tile.text).getD 1 []).getLast? = some ',' ∧
    ',' ∉ ((create_price_images p t c).map Tile.text).getD 0 [] ∧
    ',' ∉ ((create_price_images p t c).map Tile.text).getD 2 [] ∧
    ',' ∉ ((create_price_images p t c).map Tile.text).getD 3 [] := by
  rw [create_price_images_texts]
  obtain ⟨P, E, hPE, hPne, hPd, hEd, hts⟩ :=
    tile_texts_fromStr_structure (priceCents p) t c
  have h0 : tile_texts p t c = tile_texts_fromStr (formatCents (priceCents p)) t c := rfl
  rw [h0, hts]
  simp only [List.getD_cons_zero, List.getD_cons_succ]
  refine ⟨?_, List.getLast?_concat _, ?_, ?_, ?_⟩
  · rw [List.count_append,
      List.count_eq_zero_of_not_mem
        (not_mem_comma_of_all_digit (fun ch hch => hPd ch (List.mem_of_mem_drop hch))),
      List.count_singleton_self]
  · intro hm
    rcases List.mem_cons.mp hm with h | h
    · exact absurd h (by decide)
    · exact not_mem_comma_of_all_digit (fun ch hch => hPd ch (List.mem_of_mem_take hch)) h
  · exact not_mem_comma_of_all_digit hEd
  · intro hm
    rcases List.mem_cons.mp hm with h | h
    · exact absurd h (by decide)
    · exact not_mem_comma_of_all_digit (twoDigits_all_digit _) h

/-- The tile texts when the grouped integer part contains no comma (integer
part below 1000): tile 2 is all remaining integer digits plus a trailing
comma and tile 3 is empty. -/
theorem tile_texts_fromStr_no_comma (m : Nat) (t : ℤ) (c : ℚ)
    (hnc : ∀ x ∈ addThousands (natDigits (m / 100)), (x == ',') = false) :
    tile_texts_fromStr (formatCents m) t c =
      ['$' :: (natDigits (m / 100)).take 1,
       (natDigits (m / 100)).drop 1 ++ [','],
       [],
       '.' :: twoDigits (m % 100),
       fmtSignedPercent c,
       if t > 0 then ['▲'] else if t < 0 then ['▼'] else ['-']] := by
  have hdsd : ∀ ch ∈ natDigits (m / 100), ch.isDigit = true := natDigits_all_digit _
  have hdsne : natDigits (m / 100) ≠ [] := natDigits_ne_nil _
  have hfi : (addThousands (natDigits (m / 100))).findIdx? (fun c => c == ',') = none :=
    List.findIdx?_eq_none_iff.mpr hnc
  have hgs_eq : addThousands (natDigits (m / 100)) = natDigits (m / 100) :=
    calc addThousands (natDigits (m / 100))
        = (addThousands (natDigits (m / 100))).filter (fun c => c != ',') :=
          (List.filter_eq_self.mpr (fun a ha => by
            simp only [bne, hnc a ha, Bool.not_false])).symm
      _ = natDigits (m / 100) := formatCents_intDigits m
  simp only [tile_texts_fromStr]
  rw [formatCents_intPart, formatCents_decPart, formatCents_intDigits]
  simp only [hfi]
  rw [hgs_eq]
  have hfil : ((natDigits (m / 100)).drop 1 ++ [',']).filter (fun c => c != ',') =
      (natDigits (m / 100)).drop 1 := by
    rw [List.filter_append]
    have h1 : List.filter (fun c => c != ',') [','] = [] := by decide
    rw [h1, List.append_nil]
    exact List.filter_eq_self.mpr (fun a ha =>
      bne_iff_ne.mpr (isDigit_ne_comma (hdsd a (List.mem_of_mem_drop ha))))
  rw [hfil]
  have hlen : 1 + ((natDigits (m / 100)).drop 1).length = (natDigits (m / 100)).length := by
    have h1 : 1 ≤ (natDigits (m / 100)).length := by
      rcases List.exists_cons_of_ne_nil hdsne with ⟨d0, ds0, hd⟩
      rw [hd]; simp
    simp only [List.length_drop]
    omega
  rw [hlen, List.drop_length]

/-- C8: for a positive price whose formatted integer part contains no
thousands separator, tile 1 is `'$'` followed by the first integer digit,
tile 2 is all remaining integer digits followed by a trailing separator, and
tile 3 is the empty string. -/
theorem tiles_no_separator (p : ℚ) (hp : 0 < p) (t : ℤ) (c : ℚ)
    (hnc : ',' ∉ (formatPrice p).takeWhile (fun ch => ch != '.')) :
    ((create_price_images p t c).map Tile.text).take 3 =
      ['$' :: ((formatPrice p).takeWhile (fun ch => ch != '.')).take 1,
       ((formatPrice p).takeWhile (fun ch => ch != '.')).drop 1 ++ [','],
       []] := by
  rw [create_price_images_texts]
  have hip : (formatPrice p).takeWhile (fun ch => ch != '.') =
      addThousands (natDigits (priceCents p / 100)) := formatCents_intPart (priceCents p)
  rw [hip] at hnc ⊢
  have hnc2 : ∀ x ∈ addThousands (natDigits (priceCents p / 100)), (x == ',') = false := by
    intro x hx
    have hxne : x ≠ ',' := fun h => hnc (h ▸ hx)
    exact beq_eq_false_iff_ne.mpr hxne
  have hgs_eq : addThousands (natDigits (priceCents p / 100)) =
      natDigits (priceCents p / 100) :=
    calc addThousands (natDigits (priceCents p / 100))
        = (addThousands (natDigits (priceCents p / 100))).filter (fun c => c != ',') :=
          (List.filter_eq_self.mpr (fun a ha => by
            simp only [bne, hnc2 a ha, Bool.not_false])).symm
      _ = natDigits (priceCents p / 100) := formatCents_intDigits (priceCents p)
  have h0 : tile_texts p t c = tile_texts_fromStr (formatCents (priceCents p)) t c := rfl
  rw [h0, tile_texts_fromStr_no_comma (priceCents p) t c hnc2, hgs_eq]
  rfl

/-! ## Claim theorems: concrete split examples (C2), trend (C3), fetcher
failure handling (C4), driver loop (C5), blanking (C6), percent tile (C7),
vertical offsets (C9) -/

theorem priceCents_123456 : priceCents ((123456:ℚ)/100) = 123456 := by
  unfold priceCents rne
  norm_num
  rfl

theorem priceCents_98765 : priceCents ((98765:ℚ)/100) = 98765 := by
  unfold priceCents rne
  norm_num
  rfl

/-- C2 counterexample: at price `1234.56`, trend Up, change `2.34`, the
first four tile texts are not `"$1", "2,", "34", ".56"` (the comma of
`"1,234"` sits directly after the first digit, so tile 2 is just `","` and
tile 3 is `"234"`). -/
theorem C2_claimed_split_false :
    ((create_price_images ((123456:ℚ)/100) 1 ((234:ℚ)/100)).map Tile.text).take 4 ≠
      [['$', '1'], ['2', ','], ['3', '4'], ['.', '5', '6']] := by
  simp only [create_price_images_texts, tile_texts, tile_texts_fromStr, formatPrice,
    priceCents_123456, List.take_succ_cons, List.take_zero]
  decide

/-- C2 (amended): at price `1234.56` with trend Up the four price tiles are
`"$1"`, `","`, `"234"`, `".56"`, tile 5 is the signed percent string and
tile 6 the up arrow. -/
theorem split_1234_56 (c : ℚ) :
    ((create_price_images ((123456:ℚ)/100) 1 c).map Tile.text).take 4 =
      [['$', '1'], [','], ['2', '3', '4'], ['.', '5', '6']] ∧
    ((create_price_images ((123456:ℚ)/100) 1 c).map Tile.text).getD 4 [] =
      fmtSignedPercent c ∧
    ((create_price_images ((123456:ℚ)/100) 1 c).map Tile.text).getD 5 [] = ['▲'] := by
  refine ⟨?_, rfl, rfl⟩
  simp only [create_price_images_texts, tile_texts, tile_texts_fromStr, formatPrice,
    priceCents_123456, List.take_succ_cons, List.take_zero]
  decide

/-- C3: the trend stored by `fetch_price_and_trend` on a successful parse is
`classify_trend` of the 24h change, a total three-valued function:
positive change gives `1` (Up), negative gives `-1` (Down), zero gives `0`
(Flat), and no other value is possible. -/
theorem trend_classification (status : Nat) (usd chg : ℚ) (hs : status ≠ 429) :
    (fetch_price_and_trend (ApiEvent.response status (some (some usd, some chg)))).trend =
      classify_trend chg ∧
    (0 < chg → classify_trend chg = 1) ∧
    (chg < 0 → classify_trend chg = -1) ∧
    (chg = 0 → classify_trend chg = 0) ∧
    (classify_trend chg = 1 ∨ classify_trend chg = -1 ∨ classify_trend chg = 0) := by
  refine ⟨?_, ?_, ?_, ?_, ?_⟩
  · simp [fetch_price_and_trend, hs]
  · intro h
    unfold classify_trend
    rw [if_pos h]
  · intro h
    unfold classify_trend
    rw [if_neg (by linarith), if_pos h]
  · intro h
    unfold classify_trend
    rw [if_neg (by linarith), if_neg (by linarith)]
  · unfold classify_trend
    split_ifs <;> simp

theorem trend_classification_witness :
    (fetch_price_and_trend (ApiEvent.response 200 (some (some 1, some 2)))).trend =
      classify_trend 2 ∧ classify_trend 2 = 1 :=
  ⟨(trend_classification 200 1 2 (by decide)).1,
   (trend_classification 200 1 2 (by decide)).2.1 (by norm_num)⟩

/-- C4: `fetch_price_and_trend` absorbs every failure into the unavailable
result (`price = none`); on HTTP 429 it sleeps exactly 60 seconds before
returning, and on every other input it does not sleep.  (That the Lean
embedding is a total function is the image of "no exception propagates".) -/
theorem fetch_absorbs_failures (r : ApiEvent) (hr : failureEvent r = true) :
    (fetch_price_and_trend r).price = none ∧
    ((∃ b, r = ApiEvent.response 429 b) → (fetch_price_and_trend r).slept = 60) ∧
    ((∀ b, r ≠ ApiEvent.response 429 b) → (fetch_price_and_trend r).slept = 0) := by
  rcases r with _ | ⟨s, b⟩
  · refine ⟨rfl, ?_, fun _ => rfl⟩
    rintro ⟨b2, hb⟩
    cases hb
  · by_cases hs : s = 429
    · subst hs
      refine ⟨?_, fun _ => ?_, fun h => absurd rfl (h b)⟩
      · simp [fetch_price_and_trend]
      · simp [fetch_price_and_trend]
    · have hne : ∀ b2, ApiEvent.response s b ≠ ApiEvent.response 429 b2 := by
        intro b2 h
        injection h with h1 h2
        exact hs h1
      refine ⟨?_, ?_, fun _ => ?_⟩
      · rcases b with _ | ⟨u, ch⟩
        · simp [fetch_price_and_trend, hs]
        · rcases u with _ | pu
          · simp [fetch_price_and_trend, hs]
          · rcases ch with _ | pc2
            · simp [fetch_price_and_trend, hs]
            · exfalso
              simp [failureEvent, hs] at hr
      · rintro ⟨b2, hb⟩
        exact absurd hb (hne b2)
      · rcases b with _ | ⟨u, ch⟩
        · simp [fetch_price_and_trend, hs]
        · rcases u with _ | pu <;> rcases ch with _ | pc2 <;>
            simp [fetch_price_and_trend, hs]

theorem fetch_absorbs_failures_witness :
    (fetch_price_and_trend (ApiEvent.response 429 none)).price = none ∧
    (fetch_price_and_trend (ApiEvent.response 429 none)).slept = 60 := by
  have h := fetch_absorbs_failures (ApiEvent.response 429 none) (by decide)
  exact ⟨h.1, h.2.1 ⟨none, rfl⟩⟩

/-- C5: in a driver-loop iteration whose fetch came back unavailable, the
trace is exactly one sleep of the refresh interval: no tile render, no tile
push, no blanking, no countdown push. -/
theorem loop_skips_on_unavailable (fr : FetchResult) (h : fr.price = none) :
    loop_iter fr = [Event.sleepSec REFRESH_INTERVAL] ∧
    Event.renderTiles ∉ loop_iter fr ∧
    Event.pushTiles ∉ loop_iter fr ∧
    Event.blankUnused ∉ loop_iter fr ∧
    (∀ n, Event.pushCountdown n ∉ loop_iter fr) := by
  have h1 : loop_iter fr = [Event.sleepSec REFRESH_INTERVAL] := by
    unfold loop_iter
    rw [h]
  refine ⟨h1, ?_, ?_, ?_, ?_⟩
  · rw [h1]; decide
  · rw [h1]; decide
  · rw [h1]; decide
  · intro n
    rw [h1]
    intro hm
    rcases List.mem_cons.mp hm with h2 | h2
    · cases h2
    · cases h2

theorem loop_skips_on_unavailable_witness :
    loop_iter (fetch_price_and_trend ApiEvent.netError) =
      [Event.sleepSec REFRESH_INTERVAL] :=
  (loop_skips_on_unavailable (fetch_price_and_trend ApiEvent.netError) rfl).1

/-- C6: `fill_unused_keys` writes the solid black bitmap to every key index
below the device key count that is not among the used keys
`[4, 5, 6, 7, 8, 9, 10]`, and writes nothing to any used key, for every
device with at least as many keys as the used set. -/
theorem blanking_covers_unused (key_count : Nat)
    (hk : used_keys_main.length ≤ key_count) (k : Nat) (hlt : k < key_count) :
    (k ∉ used_keys_main → (k, blackColor) ∈ fill_unused_keys key_count used_keys_main) ∧
    (k ∈ used_keys_main → ∀ col, (k, col) ∉ fill_unused_keys key_count used_keys_main) := by
  constructor
  · intro hku
    unfold fill_unused_keys
    apply List.mem_map.mpr
    refine ⟨k, ?_, rfl⟩
    apply List.mem_filter.mpr
    refine ⟨List.mem_range.mpr hlt, ?_⟩
    simp [hku]
  · intro hku col hmem
    unfold fill_unused_keys at hmem
    obtain ⟨k2, hk2, hpair⟩ := List.mem_map.mp hmem
    obtain ⟨hf1, hf2⟩ := List.mem_filter.mp hk2
    have hkk : k2 = k := by
      have := congrArg Prod.fst hpair
      simpa using this
    subst hkk
    simp [hku] at hf2

theorem blanking_covers_unused_witness :
    ((0, blackColor) ∈ fill_unused_keys 15 used_keys_main) ∧
    (∀ col, (4, col) ∉ fill_unused_keys 15 used_keys_main) :=
  ⟨(blanking_covers_unused 15 (by decide) 0 (by decide)).1 (by decide),
   (blanking_covers_unused 15 (by decide) 4 (by decide)).2 (by decide)⟩

/-- C7: for every percent change, tile 5's text is an explicit sign
(`'+'` or `'-'`), the integer digits, a decimal point followed by exactly
two digits, and a final `'%'`. -/
theorem tile5_signed_two_decimals (p : ℚ) (t : ℤ) (c : ℚ) :
    ∃ (s : Char) (ip : List Char) (d1 d2 : Char),
      ((create_price_images p t c).map Tile.text).getD 4 [] =
        s :: (ip ++ '.' :: [d1, d2, '%']) ∧
      (s = '+' ∨ s = '-') ∧ (∀ ch ∈ ip, ch.isDigit = true) ∧
      d1.isDigit = true ∧ d2.isDigit = true := by
  have h4 : ((create_price_images p t c).map Tile.text).getD 4 [] = fmtSignedPercent c := rfl
  rw [h4]
  unfold fmtSignedPercent
  refine ⟨if c < 0 then '-' else '+', natDigits ((rne (|c| * 100)).toNat / 100),
    Nat.digitChar ((rne (|c| * 100)).toNat % 100 / 10 % 10),
    Nat.digitChar ((rne (|c| * 100)).toNat % 100 % 10), ?_, ?_, ?_, ?_, ?_⟩
  · simp [twoDigits]
  · split_ifs <;> simp
  · exact natDigits_all_digit _
  · exact digitChar_isDigit (Nat.mod_lt _ (by norm_num))
  · exact digitChar_isDigit (Nat.mod_lt _ (by norm_num))

/-- C9 counterexample: at price `1234.56`, trend Up, change `2.34`, the
decimal tile (tile 4, index 3) is rendered with the vertical offset 6, not
with no offset. -/
theorem C9_decimal_tile_has_offset :
    ((create_price_images ((123456:ℚ)/100) 1 ((234:ℚ)/100)).map Tile.yOffset).getD 3 0 ≠ 0 := by
  decide

/-- C9 (amended): the vertical centering offset 6 is applied to tiles 1-4
(the price digit tiles and the decimal tile) and to the arrow tile 6; only
the percent tile 5 is rendered with no offset. -/
theorem y_offsets (p : ℚ) (t : ℤ) (c : ℚ) :
    (create_price_images p t c).map Tile.yOffset = [6, 6, 6, 6, 0, 6] := rfl

theorem tiles_digit_concat_witness :
    ((((create_price_images ((123456:ℚ)/100) 1 2).map Tile.text).take 4).flatten).filter
        Char.isDigit =
      (formatPrice ((123456:ℚ)/100)).filter Char.isDigit :=
  tiles_digit_concat ((123456:ℚ)/100) (by norm_num) 1 2

theorem tile2_comma_invariant_witness :
    (((create_price_images ((123456:ℚ)/100) 1 2).map Tile.text).getD 1 []).count ',' = 1 :=
  (tile2_comma_invariant ((123456:ℚ)/100) (by norm_num) 1 2).1

theorem tiles_no_separator_witness :
    ((create_price_images ((98765:ℚ)/100) 1 2).map Tile.text).take 3 =
      ['$' :: ((formatPrice ((98765:ℚ)/100)).takeWhile (fun ch => ch != '.')).take 1,
       ((formatPrice ((98765:ℚ)/100)).takeWhile (fun ch => ch != '.')).drop 1 ++ [','],
       []] :=
  tiles_no_separator ((98765:ℚ)/100) (by norm_num) 1 2 (by
    rw [show formatPrice ((98765:ℚ)/100) = formatCents (priceCents ((98765:ℚ)/100)) from rfl,
        priceCents_98765]
    decide)
